import Mathlib

/-!
Verification of the Markdown-to-PDF rendering pipeline of the Stock-GPT
repository (the `downloadAsPdf` function and its nested helpers:
`tokenizeLine`, `renderFormattedLine`, `renderTable`, the line classifier,
and the top-level try/catch wrapper).

The embedding works over `List Char` for strings, `ℤ` for the physical
(millimetre) coordinates and text widths, and explicit state records for
the mutable closure state of the source (font size/style, the vertical
cursor `y`, the page count).  Text measurement (`doc.getTextWidth`) is an
external facility of the PDF library; it is modelled as a parameter
`w : FontStyle → Char → ℤ` giving per-character advance widths at the
working font size, with string width the sum of character widths.
-/

/-- JavaScript whitespace test (the `\s` class restricted to the characters
that can realistically occur here, plus NBSP and BOM). Used by `trim`,
and by the URL pattern `[^\s]+`. -/
def jsIsSpace (c : Char) : Bool :=
  c = ' ' || c = '\t' || c = '\n' || c = '\r' || c = '\x0b' || c = '\x0c' ||
  c = ' ' || c = '﻿'

/-- JavaScript `String.prototype.trim`: drop leading and trailing whitespace. -/
def trimList (l : List Char) : List Char :=
  ((l.dropWhile jsIsSpace).reverse.dropWhile jsIsSpace).reverse

/-- The tokenizer's span type (source: `type Token = { text; isBold; isLink; url? }`). -/
structure Token where
  text : List Char
  isBold : Bool
  isLink : Bool
  url : Option (List Char)
deriving DecidableEq

/-- The two alternatives of the tokenizer regex `/(\*\*.*?\*\*|https?:\/\/[^\s]+)/g`. -/
inductive RMatch where
  | bold : List Char → RMatch
  | url : List Char → RMatch
deriving DecidableEq

/-- Scan for the earliest closing `**` (the non-greedy `.*?\*\*` part of the
bold alternative).  Interior characters must match `.`, i.e. must not be a
newline.  Returns the interior text and the remainder after the closing
delimiter. -/
def boldScan : List Char → Option (List Char × List Char)
  | [] => none
  | c :: rest =>
    if c = '*' ∧ rest.head? = some '*' then some ([], rest.tail)
    else if c = '\n' then none
    else (boldScan rest).map fun p => (c :: p.1, p.2)

/-- The bold alternative `\*\*.*?\*\*` tried at the current position:
requires an opening `**`, then the non-greedy scan for the closing pair. -/
def tryBoldAt (l : List Char) : Option (List Char × List Char) :=
  if l.take 2 = ['*', '*'] then boldScan (l.drop 2) else none

/-- Greedy `[^\s]*`: split off the longest leading run of non-whitespace. -/
def urlTail : List Char → List Char × List Char
  | [] => ([], [])
  | c :: rest =>
    if jsIsSpace c then ([], c :: rest)
    else (c :: (urlTail rest).1, (urlTail rest).2)

/-- The URL alternative `https?:\/\/[^\s]+` tried at the current position.
Returns the full matched text and the remainder. -/
def tryUrlAt (l : List Char) : Option (List Char × List Char) :=
  if l.take 8 = "https://".toList then
    if (urlTail (l.drop 8)).1 = [] then none
    else some ("https://".toList ++ (urlTail (l.drop 8)).1, (urlTail (l.drop 8)).2)
  else if l.take 7 = "http://".toList then
    if (urlTail (l.drop 7)).1 = [] then none
    else some ("http://".toList ++ (urlTail (l.drop 7)).1, (urlTail (l.drop 7)).2)
  else none

/-- Leftmost match of the tokenizer regex: at each position the bold
alternative is tried before the URL alternative (regex alternation order),
and the scan advances one character on failure.  Returns the text before
the match, the match, and the remainder after it. -/
def findFirst : List Char → Option (List Char × RMatch × List Char)
  | [] => none
  | c :: rest =>
    match tryBoldAt (c :: rest) with
    | some (inner, r) => some ([], RMatch.bold inner, r)
    | none =>
      match tryUrlAt (c :: rest) with
      | some (t, r) => some ([], RMatch.url t, r)
      | none => (findFirst rest).map fun p => (c :: p.1, p.2.1, p.2.2)

/-- The text a match consumed from the input (bold matches include their
`**` delimiters). -/
def matchText : RMatch → List Char
  | RMatch.bold inner => '*' :: '*' :: (inner ++ ['*', '*'])
  | RMatch.url t => t

/-- Fuelled body of `tokenizeLine` (source lines 428-456).  One unit of
fuel per recursion level; `tokenizeLine` supplies `l.length`, which is
always sufficient because every match consumes at least four characters. -/
def tokenizeLineF : Nat → List Char → List Token
  | 0, _ => []
  | fuel + 1, l =>
    match findFirst l with
    | none => if l = [] then [] else [⟨l, false, false, none⟩]
    | some (pre, RMatch.url t, rest) =>
      (if pre = [] then [] else [⟨pre, false, false, none⟩]) ++
        ⟨t, false, true, some t⟩ :: tokenizeLineF fuel rest
    | some (pre, RMatch.bold inner, rest) =>
      (if pre = [] then [] else [⟨pre, false, false, none⟩]) ++
        (tokenizeLineF fuel inner).map (fun tok => { tok with isBold := true }) ++
        tokenizeLineF fuel rest

/-- `tokenizeLine` (source lines 428-456): split a line into plain, bold
and hyperlink spans; the interior of a bold match is re-tokenized
recursively and the resulting spans get `isBold` forced to `true`. -/
def tokenizeLine (l : List Char) : List Token :=
  tokenizeLineF l.length l

/-- Concatenation of the `text` fields of a span sequence. -/
def textConcat (toks : List Token) : List Char :=
  (toks.map Token.text).flatten

/-- Whether a line contains two adjacent `*` characters (a bold-marker
pair `**` occurs as a substring). -/
def hasBoldMarker : List Char → Bool
  | [] => false
  | [_] => false
  | a :: b :: rest => (a = '*' && b = '*') || hasBoldMarker (b :: rest)

/-- JavaScript `String.prototype.split('|')`: the fields between `|`
separators, including the empty leading/trailing fields produced by outer
pipes. -/
def splitPipe : List Char → List (List Char)
  | [] => [[]]
  | c :: rest =>
    if c = '|' then [] :: splitPipe rest
    else
      match splitPipe rest with
      | [] => [[c]]
      | f :: fs => (c :: f) :: fs

/-- One table row parsed as in `renderTable` (source lines 510-511):
`row.split('|').slice(1, -1).map(cell => cell.trim())` — split on `|`,
drop the leading and trailing fields from the outer pipes, trim each cell. -/
def rowCells (row : List Char) : List (List Char) :=
  (((splitPipe row).drop 1).dropLast).map trimList

/-- The header row of `renderTable` (source line 510): parsed from line 0
of the accumulated table run. -/
def renderTableHead (tableLines : List (List Char)) : List (List Char) :=
  rowCells (tableLines.headD [])

/-- The body rows of `renderTable` (source line 511): lines 2 and onward of
the accumulated run (line 1, the Markdown separator row, is discarded). -/
def renderTableBody (tableLines : List (List Char)) : List (List (List Char)) :=
  (tableLines.drop 2).map rowCells

/-- Font styles settable through `doc.setFont(undefined, style)`. -/
inductive FontStyle where
  | normal
  | bold
  | italic
deriving DecidableEq

/-- The mutable drawing state shared by the nested closures of
`downloadAsPdf`: the current font size and style, the current text color,
the module-level vertical cursor `y` used by `checkPageBreak`, and the
number of pages created so far. -/
structure PdfState where
  fontSize : ℤ
  style : FontStyle
  textColor : Nat × Nat × Nat
  y : ℤ
  pageCount : Nat
deriving DecidableEq

/-- One emitted draw call of `renderFormattedLine`: the printed substring,
its position, the font style in effect, and the hyperlink target when the
call was `doc.textWithLink` rather than `doc.text`. -/
structure Emit where
  text : List Char
  ex : ℤ
  ey : ℤ
  style : FontStyle
  link : Option (List Char)
deriving DecidableEq

/-- `checkPageBreak` (source lines 419-424): on A4 portrait the page height
is 297 mm and the top margin 20 mm; if the cursor would pass the bottom
reservation, add a page and reset `y`. -/
def checkPageBreak (spaceNeeded : ℤ) (st : PdfState) : PdfState :=
  if st.y + spaceNeeded > 297 - 15 then
    { st with pageCount := st.pageCount + 1, y := 20 }
  else st

/-- `doc.getTextWidth` modelled as the sum of per-character advance widths
`w` at the given font style (measurement inside `renderFormattedLine`
always happens at the working font size 10). -/
def strWidth (w : FontStyle → Char → ℤ) (style : FontStyle) : List Char → ℤ
  | [] => 0
  | c :: rest => w style c + strWidth w style rest

/-- The decrementing measurement loop
`while (doc.getTextWidth(remainingText.substring(0, i)) > budget) i--`
started at `i = n`: returns the largest `i ≤ n` whose prefix width fits the
budget.  When even the empty prefix fails (`0 > budget`, i.e. the budget is
negative) the JavaScript loop decrements `i` below zero forever
(`substring` clamps to the empty string), so the result is `none`:
`none` models that infinite loop. -/
def fitLenAux (W : Nat → ℤ) (budget : ℤ) : Nat → Option Nat
  | 0 => if W 0 ≤ budget then some 0 else none
  | i + 1 => if W (i + 1) ≤ budget then some (i + 1) else fitLenAux W budget i

/-- The measurement loop applied to the prefixes of `rem`. -/
def fitLen (w : FontStyle → Char → ℤ) (style : FontStyle) (rem : List Char)
    (budget : ℤ) : Option Nat :=
  fitLenAux (fun i => strWidth w style (rem.take i)) budget rem.length

/-- `if (i === 0 && remainingText.length > 0) i = 1` — the forced
single-character emission that guards against a zero-length print. -/
def forceOne (i : Nat) : Nat :=
  if i = 0 then 1 else i

/-- The hyperlink target actually passed to `doc.textWithLink`:
`token.url || textToPrint` (the printed piece is the fallback for a
missing or empty `url`). -/
def linkTarget (url : Option (List Char)) (piece : List Char) : List Char :=
  match url with
  | some u => if u = [] then piece else u
  | none => piece

/-- The `link` field recorded for one printed piece: `doc.textWithLink`
with the token's target for link tokens, plain `doc.text` otherwise. -/
def emitLink (isLink : Bool) (url : Option (List Char)) (piece : List Char) :
    Option (List Char) :=
  if isLink then some (linkTarget url piece) else none

/-- The per-token wrapping loop of `renderFormattedLine` (source lines
470-492), fuelled: one unit of fuel per loop iteration.  Each iteration
prints at least one character, so fuel `rem.length` is always sufficient
and `none` arises only from a measurement loop that never exits (negative
remaining budget), i.e. from the JavaScript infinite loop. -/
def emitWordF (w : FontStyle → Char → ℤ) (style : FontStyle) (x maxWidth : ℤ)
    (isLink : Bool) (url : Option (List Char)) :
    Nat → List Char → ℤ → ℤ → PdfState → List Emit →
    Option (ℤ × ℤ × PdfState × List Emit)
  | _, [], cx, cy, st, acc => some (cx, cy, st, acc)
  | 0, _ :: _, _, _, _, _ => none
  | fuel + 1, c :: rest, cx, cy, st, acc =>
    match fitLen w style (c :: rest) (x + maxWidth - cx) with
    | none => none
    | some i0 =>
      if i0 = 0 ∧ x < cx then
        match fitLen w style (c :: rest) maxWidth with
        | none => none
        | some i1 =>
          emitWordF w style x maxWidth isLink url fuel
            ((c :: rest).drop (forceOne i1))
            (x + strWidth w style ((c :: rest).take (forceOne i1))) (cy + 5)
            (checkPageBreak 5 st)
            (acc ++ [⟨(c :: rest).take (forceOne i1), x, cy + 5, style,
              emitLink isLink url ((c :: rest).take (forceOne i1))⟩])
      else
        emitWordF w style x maxWidth isLink url fuel
          ((c :: rest).drop (forceOne i0))
          (cx + strWidth w style ((c :: rest).take (forceOne i0))) cy st
          (acc ++ [⟨(c :: rest).take (forceOne i0), cx, cy, style,
            emitLink isLink url ((c :: rest).take (forceOne i0))⟩])

/-- The per-token wrapping loop with its (always sufficient) fuel. -/
def emitWord (w : FontStyle → Char → ℤ) (style : FontStyle) (x maxWidth : ℤ)
    (isLink : Bool) (url : Option (List Char)) (rem : List Char) (cx cy : ℤ)
    (st : PdfState) (acc : List Emit) : Option (ℤ × ℤ × PdfState × List Emit) :=
  emitWordF w style x maxWidth isLink url rem.length rem cx cy st acc

/-- The font style selected for a token:
`doc.setFont(undefined, token.isBold ? 'bold' : 'normal')`. -/
def tokStyle (tok : Token) : FontStyle :=
  if tok.isBold then FontStyle.bold else FontStyle.normal

/-- State change before a token is emitted: set the token's font style,
and the link color for link tokens. -/
def tokEnter (tok : Token) (st : PdfState) : PdfState :=
  if tok.isLink then { st with style := tokStyle tok, textColor := (41, 102, 194) }
  else { st with style := tokStyle tok }

/-- State change after a token is emitted: reset the text color after a
link token. -/
def tokExit (tok : Token) (st : PdfState) : PdfState :=
  if tok.isLink then { st with textColor := (51, 51, 51) } else st

/-- The token loop of `renderFormattedLine` (source lines 466-494): per
token set the font style, set the link color for links, run the wrapping
loop, and reset the text color after a link token. -/
def renderTokens (w : FontStyle → Char → ℤ) (x maxWidth : ℤ) :
    List Token → ℤ → ℤ → PdfState → List Emit →
    Option (ℤ × ℤ × PdfState × List Emit)
  | [], cx, cy, st, acc => some (cx, cy, st, acc)
  | tok :: toks, cx, cy, st, acc =>
    match emitWord w (tokStyle tok) x maxWidth tok.isLink tok.url tok.text cx cy
        (tokEnter tok st) acc with
    | none => none
    | some (cx2, cy2, st2, acc2) =>
      renderTokens w x maxWidth toks cx2 cy2 (tokExit tok st2) acc2

/-- `renderFormattedLine` (source lines 458-498): save the caller's font
size, work at size 10 with line height 5, tokenize and emit the line, then
restore the saved font size, set the font style to `normal`, and return
`currentY + lineHeight`.  The result is the new `y`, the final state, and
the emitted draw calls; `none` models the JavaScript infinite measurement
loop. -/
def renderFormattedLine (w : FontStyle → Char → ℤ) (line : List Char)
    (x cy maxWidth : ℤ) (st : PdfState) :
    Option (ℤ × PdfState × List Emit) :=
  match renderTokens w x maxWidth (tokenizeLine line) x cy
      { st with fontSize := 10 } [] with
  | none => none
  | some (_, cyF, stF, acc) =>
    some (cyF + 5, { stF with fontSize := st.fontSize, style := FontStyle.normal }, acc)

/-- The bullet branch of the layout loop (source lines 572-578): each
physical bullet line produced by `splitTextToSize` is rendered via
`y = renderFormattedLine(bulletLine, leftMargin + 3, y - 5, contentWidth - 3)`
with `leftMargin = 15` and `contentWidth = 210 - 2 * 15 = 180`. -/
def bulletStep (w : FontStyle → Char → ℤ) :
    List (List Char) → ℤ → PdfState → Option (ℤ × PdfState × List Emit)
  | [], y, st => some (y, st, [])
  | l :: rest, y, st =>
    match renderFormattedLine w l 18 (y - 5) 177 st with
    | none => none
    | some (y2, st2, es) =>
      match bulletStep w rest y2 st2 with
      | none => none
      | some (y3, st3, es2) => some (y3, st3, es ++ es2)

/-- The whole bullet branch (source lines 572-578): set font size 10 and
normal weight, then render every physical bullet line through the loop
above. -/
def bulletBlock (w : FontStyle → Char → ℤ) (bulletLines : List (List Char))
    (y : ℤ) (st : PdfState) : Option (ℤ × PdfState × List Emit) :=
  bulletStep w bulletLines y { st with fontSize := 10, style := FontStyle.normal }

/-- Does the list start with `http://` or `https://`? -/
def startsWithScheme (l : List Char) : Bool :=
  l.take 7 = "http://".toList || l.take 8 = "https://".toList

/-- The cell test `/https?:\/\//.test(cellText)`: the string contains
`http://` or `https://` somewhere. -/
def hasUrlScheme : List Char → Bool
  | [] => false
  | c :: rest => startsWithScheme (c :: rest) || hasUrlScheme rest

/-- The `willDrawCell` hook of `renderTable` (source lines 518-523):
returns `false` (suppress the default cell text draw) exactly when the
cell's raw text matches the URL pattern. -/
def willDrawCell (cellRaw : List Char) : Bool :=
  !(hasUrlScheme cellRaw)

/-- The cell box geometry reported by the table facility to `didDrawCell`. -/
structure CellGeom where
  cx : ℤ
  cy : ℤ
  width : ℤ
  padLeft : ℤ
  padTop : ℤ
  padHorizontal : ℤ
deriving DecidableEq

/-- How one table cell's text ends up rendered. -/
inductive CellRender where
  | defaultDraw : List Char → CellRender
  | hyperlink : Option (ℤ × PdfState × List Emit) → CellRender

/-- The per-cell rendering protocol of `renderTable` (source lines
518-533): the facility draws the cell text by its default path unless
`willDrawCell` returned `false`; `didDrawCell` then renders URL-bearing
cells through `renderFormattedLine` inside the cell's interior box
(`x = cell.x + padding left`, `y = cell.y + padding top + 3`,
`maxWidth = cell.width - horizontal padding`). -/
def drawCell (w : FontStyle → Char → ℤ) (cellRaw : List Char) (g : CellGeom)
    (st : PdfState) : CellRender :=
  if willDrawCell cellRaw then CellRender.defaultDraw cellRaw
  else
    CellRender.hyperlink
      (renderFormattedLine w cellRaw (g.cx + g.padLeft) (g.cy + g.padTop + 3)
        (g.width - g.padHorizontal) st)

/-- The block classification of one document line. -/
inductive LineClass where
  | blank
  | tableRow
  | h2
  | h3
  | bullet
  | para
deriving DecidableEq

/-- The line classifier of the layout loop (source lines 540-582): the
line is trimmed first, then tested in order — blank, table row
(`includes('|') && startsWith('|')`), `## ` heading, `### ` heading,
`- ` bullet, else paragraph. -/
def classifyCore (l : List Char) : LineClass :=
  if l = [] then LineClass.blank
  else if l.contains '|' && l.take 1 = ['|'] then LineClass.tableRow
  else if l.take 3 = "## ".toList then LineClass.h2
  else if l.take 4 = "### ".toList then LineClass.h3
  else if l.take 2 = "- ".toList then LineClass.bullet
  else LineClass.para

/-- Classification applied to the trimmed line (`line = line.trim()` is the
first statement of the loop body). -/
def classifyLine (line : List Char) : LineClass :=
  classifyCore (trimList line)

/-- The user-visible outcome of one `downloadAsPdf` call. -/
structure PdfOutcome where
  savedFile : Option (List Char)
  errorNotice : Option (List Char)
  logged : Bool
deriving DecidableEq

/-- The top-level try/catch of `downloadAsPdf` (source lines 400-592) with
the generation body abstracted as an `Except`: `doc.save` is the last
statement of the `try` block, so a successful body saves
`{ticker}_Financial_Analysis.pdf` and a thrown exception reaches the
`catch`, which logs the error and surfaces the generic notice — with no
save ever triggered. -/
def downloadAsPdfOutcome (ticker : List Char)
    (generation : Except (List Char) Unit) : PdfOutcome :=
  match generation with
  | Except.ok _ => ⟨some (ticker ++ "_Financial_Analysis.pdf".toList), none, false⟩
  | Except.error _ =>
    ⟨none, some "An error occurred while creating the PDF file.".toList, true⟩

/-- A monospace width function: every character one unit wide in every
style.  Used to instantiate universally quantified theorems. -/
def wONE : FontStyle → Char → ℤ :=
  fun _ _ => 1

/-- A width function with a wide character `W` (10 units) and narrow
everything else (1 unit).  Used to exhibit the non-terminating wrap. -/
def wCEX : FontStyle → Char → ℤ :=
  fun _ c => if c = 'W' then 10 else 1

/-- A concrete drawing state: font size 12, normal weight, body color,
cursor at the top margin of page 1. -/
def stTest : PdfState :=
  ⟨12, FontStyle.normal, (51, 51, 51), 20, 1⟩

/-- The same state with bold weight in effect. -/
def stBold : PdfState :=
  ⟨12, FontStyle.bold, (51, 51, 51), 20, 1⟩

theorem urlTail_append (xs : List Char) :
    (urlTail xs).1 ++ (urlTail xs).2 = xs := by
  induction xs with
  | nil => rfl
  | cons c rest ih =>
    simp only [urlTail]
    split
    · rfl
    · simpa using ih

theorem tryUrlAt_some {l t r : List Char} (h : tryUrlAt l = some (t, r)) :
    l = t ++ r ∧ 8 ≤ t.length := by
  unfold tryUrlAt at h
  split at h
  · next h8 =>
    split at h
    · exact absurd h (by simp)
    · simp only [Option.some.injEq, Prod.mk.injEq] at h
      obtain ⟨ht, hr⟩ := h
      have hsplit : l = "https://".toList ++
          ((urlTail (l.drop 8)).1 ++ (urlTail (l.drop 8)).2) := by
        rw [urlTail_append, ← h8]
        exact (List.take_append_drop 8 l).symm
      constructor
      · rw [← ht, ← hr, List.append_assoc]
        exact hsplit
      · rw [← ht]
        simp
  · split at h
    · next h7 =>
      split at h
      · exact absurd h (by simp)
      · next hne =>
        simp only [Option.some.injEq, Prod.mk.injEq] at h
        obtain ⟨ht, hr⟩ := h
        have hsplit : l = "http://".toList ++
            ((urlTail (l.drop 7)).1 ++ (urlTail (l.drop 7)).2) := by
          rw [urlTail_append, ← h7]
          exact (List.take_append_drop 7 l).symm
        constructor
        · rw [← ht, ← hr, List.append_assoc]
          exact hsplit
        · rw [← ht]
          have hpos : 0 < (urlTail (l.drop 7)).1.length :=
            List.length_pos.mpr hne
          have h7len : ("http://".toList).length = 7 := rfl
          simp only [List.length_append]
          omega
    · exact absurd h (by simp)

theorem boldScan_some {xs inner r : List Char}
    (h : boldScan xs = some (inner, r)) : xs = inner ++ '*' :: '*' :: r := by
  induction xs generalizing inner r with
  | nil => simp [boldScan] at h
  | cons c rest ih =>
    simp only [boldScan] at h
    split at h
    · next hc =>
      obtain ⟨hc1, hc2⟩ := hc
      simp only [Option.some.injEq, Prod.mk.injEq] at h
      obtain ⟨h1, h2⟩ := h
      subst h1 hc1
      cases rest with
      | nil => simp at hc2
      | cons d rest2 =>
        simp only [List.head?_cons, Option.some.injEq] at hc2
        simp only [List.tail_cons] at h2
        subst hc2 h2
        rfl
    · split at h
      · simp at h
      · cases hb : boldScan rest with
        | none => rw [hb] at h; simp at h
        | some p =>
          rw [hb] at h
          cases p with
          | mk p1 p2 =>
            simp only [Option.map_some', Option.some.injEq, Prod.mk.injEq] at h
            obtain ⟨h1, h2⟩ := h
            subst h2
            rw [← h1]
            simpa using ih hb

theorem tryBoldAt_some {l inner r : List Char}
    (h : tryBoldAt l = some (inner, r)) :
    l = '*' :: '*' :: (inner ++ '*' :: '*' :: r) := by
  unfold tryBoldAt at h
  split at h
  · next h2 =>
    have hd := boldScan_some h
    conv_lhs => rw [← List.take_append_drop 2 l]
    rw [h2, hd]
    rfl
  · simp at h

theorem findFirst_decomp {l pre rest : List Char} {m : RMatch}
    (h : findFirst l = some (pre, m, rest)) :
    l = pre ++ matchText m ++ rest := by
  induction l generalizing pre m rest with
  | nil => simp [findFirst] at h
  | cons c cs ih =>
    simp only [findFirst] at h
    cases hb : tryBoldAt (c :: cs) with
    | some p =>
      cases p with
      | mk inner r =>
        rw [hb] at h
        simp only [Option.some.injEq, Prod.mk.injEq] at h
        obtain ⟨h1, h2, h3⟩ := h
        subst h1 h3
        rw [← h2]
        simpa [matchText] using tryBoldAt_some hb
    | none =>
      rw [hb] at h
      cases hu : tryUrlAt (c :: cs) with
      | some q =>
        cases q with
        | mk t r =>
          rw [hu] at h
          simp only [Option.some.injEq, Prod.mk.injEq] at h
          obtain ⟨h1, h2, h3⟩ := h
          subst h1 h3
          rw [← h2]
          simpa [matchText] using (tryUrlAt_some hu).1
      | none =>
        rw [hu] at h
        cases hf : findFirst cs with
        | none => rw [hf] at h; simp at h
        | some z =>
          rw [hf] at h
          obtain ⟨z1, z2, z3⟩ := z
          simp only [Option.map_some', Option.some.injEq, Prod.mk.injEq] at h
          obtain ⟨h1, h2, h3⟩ := h
          subst h1 h2 h3
          simpa using ih hf

theorem matchText_bold_length (inner : List Char) :
    (matchText (RMatch.bold inner)).length = inner.length + 4 := by
  simp [matchText]

theorem findFirst_url_len {l pre t rest : List Char}
    (h : findFirst l = some (pre, RMatch.url t, rest)) : 8 ≤ t.length := by
  induction l generalizing pre t rest with
  | nil => simp [findFirst] at h
  | cons c cs ih =>
    simp only [findFirst] at h
    cases hb : tryBoldAt (c :: cs) with
    | some p =>
      cases p with
      | mk inner r => rw [hb] at h; simp at h
    | none =>
      rw [hb] at h
      cases hu : tryUrlAt (c :: cs) with
      | some q =>
        cases q with
        | mk t2 r =>
          rw [hu] at h
          simp only [Option.some.injEq, Prod.mk.injEq] at h
          obtain ⟨h1, h2, h3⟩ := h
          cases h2
          exact (tryUrlAt_some hu).2
      | none =>
        rw [hu] at h
        cases hf : findFirst cs with
        | none => rw [hf] at h; simp at h
        | some z =>
          rw [hf] at h
          obtain ⟨z1, z2, z3⟩ := z
          simp only [Option.map_some', Option.some.injEq, Prod.mk.injEq] at h
          obtain ⟨h1, h2, h3⟩ := h
          cases h2
          exact ih hf


theorem tokenizeLineF_stable : ∀ n : Nat, ∀ l : List Char, l.length ≤ n →
    tokenizeLineF n l = tokenizeLine l := by
  intro n
  induction n using Nat.strong_induction_on with
  | _ n ih =>
    intro l hl
    match n, l with
    | 0, l =>
      have : l = [] := List.eq_nil_of_length_eq_zero (Nat.le_zero.mp hl)
      subst this
      rfl
    | k + 1, [] => rfl
    | k + 1, c :: cs =>
      show tokenizeLineF (k + 1) (c :: cs) = tokenizeLineF (cs.length + 1) (c :: cs)
      simp only [tokenizeLineF]
      cases hf : findFirst (c :: cs) with
      | none => rfl
      | some z =>
        obtain ⟨pre, m, rest⟩ := z
        have hdec := findFirst_decomp hf
        have hlen : (c :: cs).length = pre.length + (matchText m).length + rest.length := by
          rw [hdec]
          simp
          omega
        simp only [List.length_cons] at hl hlen
        cases m with
        | url t =>
          have hurl := findFirst_url_len hf
          simp only [matchText] at hlen
          have h1 : rest.length ≤ k := by omega
          have h2 : rest.length ≤ cs.length := by omega
          dsimp only
          rw [ih k (by omega) rest h1, ih cs.length (by omega) rest h2]
        | bold inner =>
          rw [matchText_bold_length] at hlen
          have h1 : rest.length ≤ k := by omega
          have h2 : rest.length ≤ cs.length := by omega
          have h3 : inner.length ≤ k := by omega
          have h4 : inner.length ≤ cs.length := by omega
          dsimp only
          rw [ih k (by omega) rest h1, ih cs.length (by omega) rest h2,
            ih k (by omega) inner h3, ih cs.length (by omega) inner h4]

/-- One-step unfolding of `tokenizeLine` at its natural fuel. -/
theorem tokenizeLine_eq (l : List Char) :
    tokenizeLine l =
      match findFirst l with
      | none => if l = [] then [] else [⟨l, false, false, none⟩]
      | some (pre, RMatch.url t, rest) =>
        (if pre = [] then [] else [⟨pre, false, false, none⟩]) ++
          ⟨t, false, true, some t⟩ :: tokenizeLine rest
      | some (pre, RMatch.bold inner, rest) =>
        (if pre = [] then [] else [⟨pre, false, false, none⟩]) ++
          (tokenizeLine inner).map (fun tok => { tok with isBold := true }) ++
          tokenizeLine rest := by
  cases l with
  | nil => rfl
  | cons c cs =>
    show tokenizeLineF (cs.length + 1) (c :: cs) = _
    simp only [tokenizeLineF]
    cases hf : findFirst (c :: cs) with
    | none => rfl
    | some z =>
      obtain ⟨pre, m, rest⟩ := z
      have hdec := findFirst_decomp hf
      have hlen : (c :: cs).length = pre.length + (matchText m).length + rest.length := by
        rw [hdec]
        simp
        omega
      simp only [List.length_cons] at hlen
      cases m with
      | url t =>
        have hurl := findFirst_url_len hf
        simp only [matchText] at hlen
        have h2 : rest.length ≤ cs.length := by omega
        dsimp only
        rw [tokenizeLineF_stable cs.length rest h2]
      | bold inner =>
        rw [matchText_bold_length] at hlen
        dsimp only
        rw [tokenizeLineF_stable cs.length rest (by omega),
          tokenizeLineF_stable cs.length inner (by omega)]

theorem textConcat_append (a b : List Token) :
    textConcat (a ++ b) = textConcat a ++ textConcat b := by
  simp [textConcat]

theorem textConcat_cons (t : Token) (ts : List Token) :
    textConcat (t :: ts) = t.text ++ textConcat ts := by
  simp [textConcat]

theorem hasBoldMarker_append_right (a b : List Char)
    (hb : hasBoldMarker b = true) : hasBoldMarker (a ++ b) = true := by
  induction a with
  | nil => simpa
  | cons x a2 ih =>
    cases hab : a2 ++ b with
    | nil =>
      rcases List.append_eq_nil.mp hab with ⟨_, h2⟩
      rw [h2] at hb
      simp [hasBoldMarker] at hb
    | cons y t =>
      show hasBoldMarker (x :: (a2 ++ b)) = true
      rw [hab]
      simp only [hasBoldMarker, Bool.or_eq_true]
      right
      rw [← hab]
      exact ih

theorem hasBoldMarker_stars (a b : List Char) :
    hasBoldMarker (a ++ '*' :: '*' :: b) = true := by
  apply hasBoldMarker_append_right
  simp [hasBoldMarker]

theorem hasBoldMarker_of_append (a b : List Char)
    (h : hasBoldMarker (a ++ b) = false) : hasBoldMarker b = false := by
  cases hc : hasBoldMarker b with
  | false => rfl
  | true =>
    rw [hasBoldMarker_append_right a b hc] at h
    exact absurd h (by simp)

theorem textConcat_tokenize_aux : ∀ n : Nat, ∀ l : List Char, l.length ≤ n →
    hasBoldMarker l = false → textConcat (tokenizeLine l) = l := by
  intro n
  induction n with
  | zero =>
    intro l hl _
    have : l = [] := List.eq_nil_of_length_eq_zero (Nat.le_zero.mp hl)
    subst this
    rfl
  | succ k ih =>
    intro l hl hb
    rw [tokenizeLine_eq]
    cases hf : findFirst l with
    | none =>
      by_cases hnil : l = []
      · subst hnil
        rfl
      · simp [hnil, textConcat]
    | some z =>
      obtain ⟨pre, m, rest⟩ := z
      have hdec := findFirst_decomp hf
      cases m with
      | bold inner =>
        exfalso
        have : hasBoldMarker l = true := by
          rw [hdec]
          simp only [matchText]
          have : pre ++ ('*' :: '*' :: (inner ++ ['*', '*'])) ++ rest =
              pre ++ '*' :: '*' :: ((inner ++ ['*', '*']) ++ rest) := by
            simp
          rw [this]
          exact hasBoldMarker_stars pre ((inner ++ ['*', '*']) ++ rest)
        rw [this] at hb
        exact absurd hb (by simp)
      | url t =>
        have hurl := findFirst_url_len hf
        have hlen : l.length = pre.length + t.length + rest.length := by
          rw [hdec]
          simp [matchText]
          omega
        have hrest : hasBoldMarker rest = false := by
          have h1 : hasBoldMarker (matchText (RMatch.url t) ++ rest) = false := by
            refine hasBoldMarker_of_append pre _ ?_
            rw [← List.append_assoc, ← hdec]
            exact hb
          exact hasBoldMarker_of_append _ _ h1
        rw [textConcat_append, textConcat_cons]
        have hihr : textConcat (tokenizeLine rest) = rest :=
          ih rest (by omega) hrest
        rw [hihr]
        have hpre : textConcat (if pre = [] then [] else [⟨pre, false, false, none⟩]) = pre := by
          by_cases hp : pre = []
          · subst hp
            rfl
          · simp [hp, textConcat]
        rw [hpre]
        show pre ++ (t ++ rest) = l
        rw [← List.append_assoc]
        simp only [matchText] at hdec
        exact hdec.symm

theorem fitLenAux_spec {W : Nat → ℤ} {budget : ℤ} :
    ∀ {n i : Nat}, fitLenAux W budget n = some i → W i ≤ budget ∧ i ≤ n := by
  intro n
  induction n with
  | zero =>
    intro i h
    simp only [fitLenAux] at h
    split at h
    · next h0 =>
      cases h
      exact ⟨h0, Nat.le_refl 0⟩
    · exact absurd h (by simp)
  | succ m ih =>
    intro i h
    simp only [fitLenAux] at h
    split at h
    · next hm =>
      cases h
      exact ⟨hm, Nat.le_refl _⟩
    · obtain ⟨h1, h2⟩ := ih h
      exact ⟨h1, Nat.le_succ_of_le h2⟩

theorem fitLenAux_some (W : Nat → ℤ) {budget : ℤ} (h0 : W 0 ≤ budget) :
    ∀ n, ∃ i, fitLenAux W budget n = some i := by
  intro n
  induction n with
  | zero => exact ⟨0, by simp [fitLenAux, h0]⟩
  | succ m ih =>
    by_cases hm : W (m + 1) ≤ budget
    · exact ⟨m + 1, by simp [fitLenAux, hm]⟩
    · obtain ⟨i, hi⟩ := ih
      exact ⟨i, by simp [fitLenAux, hm, hi]⟩

theorem fitLenAux_max {W : Nat → ℤ} {budget : ℤ} :
    ∀ {n i : Nat}, fitLenAux W budget n = some i →
      ∀ j, i < j → j ≤ n → ¬ W j ≤ budget := by
  intro n
  induction n with
  | zero =>
    intro i h j hij hj
    omega
  | succ m ih =>
    intro i h j hij hj
    simp only [fitLenAux] at h
    split at h
    · next hm =>
      cases h
      omega
    · next hm =>
      rcases Nat.lt_or_ge j (m + 1) with hlt | hge
      · exact ih h j hij (by omega)
      · have : j = m + 1 := by omega
        subst this
        exact hm

theorem fitLen_spec {w : FontStyle → Char → ℤ} {style : FontStyle}
    {rem : List Char} {budget : ℤ} {i : Nat}
    (h : fitLen w style rem budget = some i) :
    strWidth w style (rem.take i) ≤ budget ∧ i ≤ rem.length :=
  fitLenAux_spec h

theorem fitLen_some (w : FontStyle → Char → ℤ) (style : FontStyle)
    (rem : List Char) {budget : ℤ} (h0 : (0 : ℤ) ≤ budget) :
    ∃ i, fitLen w style rem budget = some i :=
  fitLenAux_some (fun i => strWidth w style (rem.take i))
    (show strWidth w style (rem.take 0) ≤ budget from h0) rem.length

theorem strWidth_nonneg {w : FontStyle → Char → ℤ} {style : FontStyle}
    (hw : ∀ c, 0 ≤ w style c) : ∀ l : List Char, 0 ≤ strWidth w style l := by
  intro l
  induction l with
  | nil => exact le_refl 0
  | cons c rest ih =>
    simp only [strWidth]
    exact add_nonneg (hw c) ih

theorem strWidth_take_one {w : FontStyle → Char → ℤ} {style : FontStyle}
    (c : Char) (rest : List Char) :
    strWidth w style ((c :: rest).take 1) = w style c := by
  simp [strWidth]

theorem fitLen_one_le {w : FontStyle → Char → ℤ} {style : FontStyle}
    {c : Char} {rest : List Char} {budget : ℤ} {i : Nat}
    (hc : w style c ≤ budget)
    (h : fitLen w style (c :: rest) budget = some i) : 1 ≤ i := by
  by_contra h1
  have hi0 : i = 0 := by omega
  subst hi0
  refine absurd ?_ (fitLenAux_max h 1 (by omega) (by simp))
  show strWidth w style ((c :: rest).take 1) ≤ budget
  rw [strWidth_take_one]
  exact hc

theorem fitLen_full {w : FontStyle → Char → ℤ} {style : FontStyle}
    {rem : List Char} {budget : ℤ} (h : strWidth w style rem ≤ budget) :
    fitLen w style rem budget = some rem.length := by
  cases rem with
  | nil =>
    show fitLenAux _ _ 0 = some 0
    simp only [fitLenAux]
    rw [if_pos]
    exact h
  | cons c rest =>
    show fitLenAux _ _ (rest.length + 1) = some (c :: rest).length
    simp only [fitLenAux]
    rw [if_pos]
    · simp
    · show strWidth w style ((c :: rest).take (rest.length + 1)) ≤ budget
      rw [List.take_of_length_le (by simp)]
      exact h

theorem emitWordF_safe (w : FontStyle → Char → ℤ) (style : FontStyle)
    (x maxWidth : ℤ) (isLink : Bool) (url : Option (List Char))
    (hw : ∀ c, 0 ≤ w style c) (hfit : ∀ c, w style c ≤ maxWidth) :
    ∀ fuel : Nat, ∀ rem : List Char, rem.length ≤ fuel →
    ∀ cx cy : ℤ, ∀ st : PdfState, ∀ acc : List Emit,
    x ≤ cx → cx ≤ x + maxWidth →
    (∀ e ∈ acc, strWidth w e.style e.text ≤ maxWidth) →
    ∃ cx2 cy2 st2 acc2,
      emitWordF w style x maxWidth isLink url fuel rem cx cy st acc =
        some (cx2, cy2, st2, acc2) ∧
      x ≤ cx2 ∧ cx2 ≤ x + maxWidth ∧
      ∀ e ∈ acc2, strWidth w e.style e.text ≤ maxWidth := by
  intro fuel
  induction fuel with
  | zero =>
    intro rem hrem cx cy st acc hx hcx hacc
    have : rem = [] := List.eq_nil_of_length_eq_zero (Nat.le_zero.mp hrem)
    subst this
    exact ⟨cx, cy, st, acc, rfl, hx, hcx, hacc⟩
  | succ fuel ih =>
    intro rem hrem cx cy st acc hx hcx hacc
    cases rem with
    | nil => exact ⟨cx, cy, st, acc, rfl, hx, hcx, hacc⟩
    | cons c rest =>
      have hmw : (0 : ℤ) ≤ maxWidth := le_trans (hw c) (hfit c)
      have hbud : (0 : ℤ) ≤ x + maxWidth - cx := by omega
      obtain ⟨i0, hi0⟩ :=
        fitLen_some w style (c :: rest) hbud
      simp only [emitWordF]
      rw [hi0]
      dsimp only
      by_cases hcase : i0 = 0 ∧ x < cx
      · rw [if_pos hcase]
        obtain ⟨i1, hi1⟩ :=
          fitLen_some w style (c :: rest) hmw
        rw [hi1]
        dsimp only
        have hone : 1 ≤ i1 := fitLen_one_le (hfit c) hi1
        have hfo : forceOne i1 = i1 := by
          unfold forceOne
          rw [if_neg (by omega)]
        obtain ⟨hw1, hlen1⟩ := fitLen_spec hi1
        have hwnn : 0 ≤ strWidth w style ((c :: rest).take (forceOne i1)) := by
          exact strWidth_nonneg hw _
        have hdroplen : ((c :: rest).drop (forceOne i1)).length ≤ fuel := by
          rw [hfo]
          simp only [List.length_drop, List.length_cons]
          simp only [List.length_cons] at hrem
          omega
        refine ih _ hdroplen _ _ _ _ (by omega) ?_ ?_
        · rw [hfo]
          omega
        · intro e he
          rcases List.mem_append.mp he with hin | hnew
          · exact hacc e hin
          · simp only [List.mem_singleton] at hnew
            subst hnew
            rw [hfo]
            exact hw1
      · rw [if_neg hcase]
        obtain ⟨hw0, hlen0⟩ := fitLen_spec hi0
        have hone : 1 ≤ i0 := by
          by_contra hno
          have hi00 : i0 = 0 := by omega
          have hcxx : cx = x := by
            have : ¬ x < cx := fun hlt => hcase ⟨hi00, hlt⟩
            omega
          subst hi00
          refine absurd ?_ (fitLenAux_max hi0 1 (by omega) (by simp))
          show strWidth w style ((c :: rest).take 1) ≤ x + maxWidth - cx
          rw [strWidth_take_one, hcxx]
          have : x + maxWidth - x = maxWidth := by ring
          rw [this]
          exact hfit c
        have hfo : forceOne i0 = i0 := by
          unfold forceOne
          rw [if_neg (by omega)]
        have hwnn : 0 ≤ strWidth w style ((c :: rest).take (forceOne i0)) :=
          strWidth_nonneg hw _
        have hdroplen : ((c :: rest).drop (forceOne i0)).length ≤ fuel := by
          rw [hfo]
          simp only [List.length_drop, List.length_cons]
          simp only [List.length_cons] at hrem
          omega
        refine ih _ hdroplen _ _ _ _ (by omega) ?_ ?_
        · rw [hfo]
          omega
        · intro e he
          rcases List.mem_append.mp he with hin | hnew
          · exact hacc e hin
          · simp only [List.mem_singleton] at hnew
            subst hnew
            show strWidth w style ((c :: rest).take (forceOne i0)) ≤ maxWidth
            rw [hfo]
            omega

theorem renderTokens_safe (w : FontStyle → Char → ℤ) (x maxWidth : ℤ)
    (hw : ∀ s c, 0 ≤ w s c) (hfit : ∀ s c, w s c ≤ maxWidth) :
    ∀ toks : List Token, ∀ cx cy : ℤ, ∀ st : PdfState, ∀ acc : List Emit,
    x ≤ cx → cx ≤ x + maxWidth →
    (∀ e ∈ acc, strWidth w e.style e.text ≤ maxWidth) →
    ∃ cx2 cy2 st2 acc2,
      renderTokens w x maxWidth toks cx cy st acc = some (cx2, cy2, st2, acc2) ∧
      ∀ e ∈ acc2, strWidth w e.style e.text ≤ maxWidth := by
  intro toks
  induction toks with
  | nil =>
    intro cx cy st acc hx hcx hacc
    exact ⟨cx, cy, st, acc, rfl, hacc⟩
  | cons tok toks ih =>
    intro cx cy st acc hx hcx hacc
    obtain ⟨cx2, cy2, st2, acc2, hrun, hx2, hcx2, hacc2⟩ :=
      emitWordF_safe w (tokStyle tok) x maxWidth tok.isLink tok.url
        (hw (tokStyle tok)) (hfit (tokStyle tok)) tok.text.length tok.text
        (Nat.le_refl _) cx cy (tokEnter tok st) acc hx hcx hacc
    simp only [renderTokens, emitWord]
    rw [hrun]
    dsimp only
    exact ih cx2 cy2 (tokExit tok st2) acc2 hx2 hcx2 hacc2

/-- Total width of a token sequence, each token measured at its own style. -/
def tokensWidth (w : FontStyle → Char → ℤ) : List Token → ℤ
  | [] => 0
  | tok :: toks => strWidth w (tokStyle tok) tok.text + tokensWidth w toks

theorem tokensWidth_nonneg {w : FontStyle → Char → ℤ}
    (hw : ∀ s c, 0 ≤ w s c) : ∀ toks : List Token, 0 ≤ tokensWidth w toks := by
  intro toks
  induction toks with
  | nil => exact le_refl 0
  | cons tok toks ih =>
    simp only [tokensWidth]
    exact add_nonneg (strWidth_nonneg (hw (tokStyle tok)) tok.text) ih

theorem emitWord_fits (w : FontStyle → Char → ℤ) (style : FontStyle)
    (x maxWidth : ℤ) (isLink : Bool) (url : Option (List Char))
    (c : Char) (rest : List Char) (cx cy : ℤ) (st : PdfState) (acc : List Emit)
    (hfit : strWidth w style (c :: rest) ≤ x + maxWidth - cx) :
    emitWord w style x maxWidth isLink url (c :: rest) cx cy st acc =
      some (cx + strWidth w style (c :: rest), cy, st,
        acc ++ [⟨c :: rest, cx, cy, style, emitLink isLink url (c :: rest)⟩]) := by
  show emitWordF w style x maxWidth isLink url (rest.length + 1) (c :: rest)
      cx cy st acc = _
  simp only [emitWordF]
  rw [fitLen_full hfit]
  dsimp only
  rw [if_neg (by simp)]
  have hfo : forceOne (c :: rest).length = (c :: rest).length := by
    unfold forceOne
    rw [if_neg (by simp)]
  rw [hfo, List.take_length, List.drop_length]
  simp only [emitWordF]

theorem renderTokens_fits (w : FontStyle → Char → ℤ) (x maxWidth : ℤ)
    (hw : ∀ s c, 0 ≤ w s c) :
    ∀ toks : List Token, ∀ cx cy : ℤ, ∀ st : PdfState, ∀ acc : List Emit,
    cx + tokensWidth w toks ≤ x + maxWidth →
    ∃ st2 acc2,
      renderTokens w x maxWidth toks cx cy st acc =
        some (cx + tokensWidth w toks, cy, st2, acc2) ∧
      ∀ e ∈ acc2, e ∈ acc ∨ e.ey = cy := by
  intro toks
  induction toks with
  | nil =>
    intro cx cy st acc hfit
    refine ⟨st, acc, ?_, fun e he => Or.inl he⟩
    simp only [renderTokens, tokensWidth, add_zero]
  | cons tok toks ih =>
    intro cx cy st acc hfit
    simp only [tokensWidth] at hfit
    have htw := tokensWidth_nonneg hw toks
    cases htext : tok.text with
    | nil =>
      have hzero : strWidth w (tokStyle tok) tok.text = 0 := by
        rw [htext]
        rfl
      obtain ⟨st2, acc2, hrun, hmem⟩ :=
        ih cx cy (tokExit tok (tokEnter tok st)) acc (by omega)
      refine ⟨st2, acc2, ?_, hmem⟩
      simp only [renderTokens, emitWord, htext, List.length_nil]
      dsimp only [emitWordF]
      simp only [tokensWidth, htext]
      simp only [strWidth, zero_add]
      exact hrun
    | cons c rest =>
      have hw1 : strWidth w (tokStyle tok) (c :: rest) ≤ x + maxWidth - cx := by
        rw [htext] at hfit
        omega
      obtain ⟨st2, acc2, hrun, hmem⟩ :=
        ih (cx + strWidth w (tokStyle tok) (c :: rest)) cy
          (tokExit tok (tokEnter tok st))
          (acc ++ [⟨c :: rest, cx, cy, tokStyle tok,
            emitLink tok.isLink tok.url (c :: rest)⟩])
          (by rw [htext] at hfit; omega)
      refine ⟨st2, acc2, ?_, ?_⟩
      · simp only [renderTokens, htext]
        rw [emitWord_fits w (tokStyle tok) x maxWidth tok.isLink tok.url c rest
          cx cy (tokEnter tok st) acc hw1]
        dsimp only
        rw [hrun]
        simp only [tokensWidth, htext, add_assoc]
      · intro e he
        rcases hmem e he with hin | hey
        · rcases List.mem_append.mp hin with h1 | h2
          · exact Or.inl h1
          · simp only [List.mem_singleton] at h2
            subst h2
            exact Or.inr rfl
        · exact Or.inr hey

theorem renderFormattedLine_fits (w : FontStyle → Char → ℤ) (line : List Char)
    (x cy maxWidth : ℤ) (st : PdfState) (hw : ∀ s c, 0 ≤ w s c)
    (hfit : tokensWidth w (tokenizeLine line) ≤ maxWidth) :
    ∃ st2 es,
      renderFormattedLine w line x cy maxWidth st = some (cy + 5, st2, es) ∧
      ∀ e ∈ es, e.ey = cy := by
  obtain ⟨st2, acc2, hrun, hmem⟩ :=
    renderTokens_fits w x maxWidth hw (tokenizeLine line) x cy
      { st with fontSize := 10 } [] (by omega)
  unfold renderFormattedLine
  rw [hrun]
  dsimp only
  refine ⟨_, acc2, rfl, ?_⟩
  intro e he
  rcases hmem e he with h1 | h2
  · simp at h1
  · exact h2

theorem bulletStep_no_wrap (w : FontStyle → Char → ℤ)
    (hw : ∀ s c, 0 ≤ w s c) :
    ∀ ls : List (List Char), ∀ y : ℤ, ∀ st : PdfState,
    (∀ l ∈ ls, tokensWidth w (tokenizeLine l) ≤ 177) →
    ∃ st2 es, bulletStep w ls y st = some (y, st2, es) ∧
      ∀ e ∈ es, e.ey = y - 5 := by
  intro ls
  induction ls with
  | nil =>
    intro y st _
    exact ⟨st, [], rfl, by simp⟩
  | cons l ls ih =>
    intro y st hfit
    obtain ⟨st2, es, hr, hmem⟩ :=
      renderFormattedLine_fits w l 18 (y - 5) 177 st hw (hfit l (by simp))
    obtain ⟨st3, es2, hr2, hmem2⟩ :=
      ih y st2 (fun l2 hl2 => hfit l2 (by simp [hl2]))
    refine ⟨st3, es ++ es2, ?_, ?_⟩
    · simp only [bulletStep]
      rw [hr]
      dsimp only
      have hy : y - 5 + 5 = y := by ring
      rw [hy, hr2]
    · intro e he
      rcases List.mem_append.mp he with h1 | h2
      · exact hmem e h1
      · exact hmem2 e h2

theorem renderFormattedLine_restores (w : FontStyle → Char → ℤ)
    (line : List Char) (x cy maxWidth : ℤ) (st : PdfState)
    (r : ℤ × PdfState × List Emit)
    (h : renderFormattedLine w line x cy maxWidth st = some r) :
    r.2.1.fontSize = st.fontSize ∧ r.2.1.style = FontStyle.normal := by
  unfold renderFormattedLine at h
  cases hrun : renderTokens w x maxWidth (tokenizeLine line) x cy
      { st with fontSize := 10 } [] with
  | none =>
    rw [hrun] at h
    exact absurd h (by simp)
  | some q =>
    rw [hrun] at h
    obtain ⟨cx2, cy2, st2, acc2⟩ := q
    dsimp only at h
    cases h
    exact ⟨rfl, rfl⟩

theorem dropWhile_all_append {p : Char → Bool} :
    ∀ a b : List Char, (∀ c ∈ a, p c = true) →
    List.dropWhile p (a ++ b) = List.dropWhile p b := by
  intro a
  induction a with
  | nil => intro b _; rfl
  | cons x a2 ih =>
    intro b ha
    have hx : p x = true := ha x (List.mem_cons_self x a2)
    rw [List.cons_append]
    rw [List.dropWhile_cons_of_pos hx]
    exact ih b (fun c hc => ha c (List.mem_cons_of_mem x hc))

theorem dropWhile_all_nil {p : Char → Bool} (a : List Char)
    (ha : ∀ c ∈ a, p c = true) : List.dropWhile p a = [] := by
  have := dropWhile_all_append a [] ha
  simpa using this

theorem dropWhile_append_of_ne {p : Char → Bool} :
    ∀ a b : List Char, List.dropWhile p a ≠ [] →
    List.dropWhile p (a ++ b) = List.dropWhile p a ++ b := by
  intro a
  induction a with
  | nil => intro b h; exact absurd rfl h
  | cons x a2 ih =>
    intro b h
    by_cases hx : p x = true
    · rw [List.dropWhile_cons_of_pos hx] at h
      rw [List.cons_append, List.dropWhile_cons_of_pos hx,
        List.dropWhile_cons_of_pos hx]
      exact ih b h
    · have hx2 : p x = false := by
        cases hpx : p x
        · rfl
        · exact absurd hpx hx
      rw [List.cons_append, List.dropWhile_cons_of_neg (by simp [hx2]),
        List.dropWhile_cons_of_neg (by simp [hx2]), List.cons_append]

theorem trimList_of_all_space (l : List Char)
    (h : ∀ c ∈ l, jsIsSpace c = true) : trimList l = [] := by
  unfold trimList
  rw [dropWhile_all_nil l h]
  rfl

theorem trimList_pad (ws l ws2 : List Char)
    (h1 : ∀ c ∈ ws, jsIsSpace c = true) (h2 : ∀ c ∈ ws2, jsIsSpace c = true) :
    trimList (ws ++ l ++ ws2) = trimList l := by
  unfold trimList
  rw [List.append_assoc, dropWhile_all_append ws (l ++ ws2) h1]
  by_cases hnil : List.dropWhile jsIsSpace l = []
  · have hall : ∀ c ∈ l, jsIsSpace c = true := by
      intro c hc
      exact List.dropWhile_eq_nil_iff.mp hnil c hc
    have hall2 : ∀ c ∈ l ++ ws2, jsIsSpace c = true := by
      intro c hc
      rcases List.mem_append.mp hc with h | h
      · exact hall c h
      · exact h2 c h
    rw [dropWhile_all_nil _ hall2, hnil]
  · rw [dropWhile_append_of_ne l ws2 hnil, List.reverse_append,
      dropWhile_all_append ws2.reverse _ (fun c hc => h2 c (List.mem_reverse.mp hc))]

/-- C1 counterexample: for the input line `**a**` the concatenation of the
span texts is `a`, not the original line — the tokenizer strips the `**`
delimiters of a bold match, so concatenation does not reconstruct the line. -/
theorem tokenizeLine_concat_not_id :
    textConcat (tokenizeLine "**a**".toList) = "a".toList ∧
    textConcat (tokenizeLine "**a**".toList) ≠ "**a**".toList := by
  decide

/-- C1 (amended): for every input line in which the substring `**` does not
occur, the concatenation of the `text` fields of all spans returned by the
tokenizer, in order, equals the original line exactly (bold matches, when
present, lose their `**` delimiter pairs in the concatenation). -/
theorem tokenizeLine_concat_of_no_marker (l : List Char)
    (h : hasBoldMarker l = false) : textConcat (tokenizeLine l) = l :=
  textConcat_tokenize_aux l.length l (Nat.le_refl _) h

theorem tokenizeLine_concat_of_no_marker_witness :
    textConcat (tokenizeLine "see https://x.com now".toList) =
      "see https://x.com now".toList :=
  tokenizeLine_concat_of_no_marker "see https://x.com now".toList (by decide)

/-- C2 counterexample: with per-character widths 1 for every character
except `W` (width 10), the budget `maxWidth = 1` is at least as wide as the
narrowest character, yet rendering the single plain span `iWW` diverges
(the model returns `none`, standing for the JavaScript infinite loop):
after `i` is printed the cursor wraps, `W` is force-emitted one character
wide over budget, and the measurement loop for the final `W` faces a
negative remaining budget, where even the empty prefix fails the test and
`i--` runs forever. -/
theorem renderFormattedLine_narrowest_diverges :
    wCEX FontStyle.normal 'i' ≤ 1 ∧
    renderFormattedLine wCEX "iWW".toList 0 50 1 stTest = none := by
  decide

/-- C2 (amended): for every span sequence and every `maxWidth` at least as
wide as the widest single character (in every font style), the wrapping
renderer terminates — each loop iteration prints at least one character and
no measurement loop can face a negative budget — and never emits a
substring whose measured width exceeds `maxWidth` (no forced
single-character fallback ever fires under this hypothesis). -/
theorem renderFormattedLine_total_of_charfit (w : FontStyle → Char → ℤ)
    (line : List Char) (x cy maxWidth : ℤ) (st : PdfState)
    (hw : ∀ s c, 0 ≤ w s c) (hfit : ∀ s c, w s c ≤ maxWidth) :
    ∃ r, renderFormattedLine w line x cy maxWidth st = some r ∧
      ∀ e ∈ r.2.2, strWidth w e.style e.text ≤ maxWidth := by
  obtain ⟨cx2, cy2, st2, acc2, hrun, hb⟩ :=
    renderTokens_safe w x maxWidth hw hfit (tokenizeLine line) x cy
      { st with fontSize := 10 } [] (le_refl x)
      (by
        have := le_trans (hw FontStyle.normal 'a') (hfit FontStyle.normal 'a')
        omega)
      (by simp)
  unfold renderFormattedLine
  rw [hrun]
  dsimp only
  exact ⟨_, rfl, hb⟩

theorem renderFormattedLine_total_of_charfit_witness :
    ∃ r, renderFormattedLine wONE "ab".toList 0 50 10 stTest = some r ∧
      ∀ e ∈ r.2.2, strWidth wONE e.style e.text ≤ 10 :=
  renderFormattedLine_total_of_charfit wONE "ab".toList 0 50 10 stTest
    (fun _ _ => (by decide : (0 : ℤ) ≤ 1))
    (fun _ _ => (by decide : (1 : ℤ) ≤ 10))

/-- C3: table parsing — line 0 of an accumulated run is the header row,
line 1 (the Markdown separator row) is discarded, lines 2 and onward are
the body rows; each row is split on `|`, the leading and trailing empty
fields from the outer pipes are dropped, and every remaining cell is
trimmed.  Concretely, the four lines `|A|B|`, `|-|-|`, `|1|2|`, `|3|4|`
give header `["A","B"]` and body `[["1","2"],["3","4"]]`, and in general
neither the header nor the body depends on line 1, so the separator line
never appears in the output. -/
theorem renderTable_header_separator_body :
    (renderTableHead
        ["|A|B|".toList, "|-|-|".toList, "|1|2|".toList, "|3|4|".toList] =
        ["A".toList, "B".toList] ∧
      renderTableBody
        ["|A|B|".toList, "|-|-|".toList, "|1|2|".toList, "|3|4|".toList] =
        [["1".toList, "2".toList], ["3".toList, "4".toList]]) ∧
    ∀ hd sep : List Char, ∀ rest : List (List Char),
      renderTableHead (hd :: sep :: rest) = rowCells hd ∧
      renderTableBody (hd :: sep :: rest) = rest.map rowCells :=
  ⟨⟨by decide, by decide⟩, fun hd sep rest => ⟨rfl, rfl⟩⟩

/-- C4: for every table cell whose raw text matches the URL pattern
(`/https?:\/\//`), the default cell text path is suppressed
(`willDrawCell` returns `false`) and the cell is rendered exclusively by
`renderFormattedLine` inside the cell's interior box in the did-draw hook. -/
theorem urlCell_uses_hyperlink_path (w : FontStyle → Char → ℤ)
    (cellRaw : List Char) (g : CellGeom) (st : PdfState)
    (h : hasUrlScheme cellRaw = true) :
    willDrawCell cellRaw = false ∧
    drawCell w cellRaw g st =
      CellRender.hyperlink (renderFormattedLine w cellRaw (g.cx + g.padLeft)
        (g.cy + g.padTop + 3) (g.width - g.padHorizontal) st) := by
  have hwd : willDrawCell cellRaw = false := by
    unfold willDrawCell
    rw [h]
    rfl
  refine ⟨hwd, ?_⟩
  unfold drawCell
  rw [hwd]
  simp

theorem urlCell_uses_hyperlink_path_witness :
    willDrawCell "https://example.com".toList = false ∧
    drawCell wONE "https://example.com".toList ⟨0, 0, 50, 1, 1, 2⟩ stTest =
      CellRender.hyperlink
        (renderFormattedLine wONE "https://example.com".toList (0 + 1)
          (0 + 1 + 3) (50 - 2) stTest) :=
  urlCell_uses_hyperlink_path wONE "https://example.com".toList
    ⟨0, 0, 50, 1, 1, 2⟩ stTest (by decide)

/-- C5: a bold match has its delimiters stripped and its interior
re-tokenized recursively, and every span produced by the recursive call
appears in the result with `isBold` forced to `true`; concretely
`tokenize("**a https://x.com b**")` is exactly three spans, all bold, the
middle one a link. -/
theorem bold_inner_retokenized_forced_bold :
    (tokenizeLine "**a https://x.com b**".toList =
      [⟨"a ".toList, true, false, none⟩,
       ⟨"https://x.com".toList, true, true, some "https://x.com".toList⟩,
       ⟨" b".toList, true, false, none⟩]) ∧
    ∀ l pre inner rest : List Char,
      findFirst l = some (pre, RMatch.bold inner, rest) →
      ∀ tok ∈ tokenizeLine inner,
        { tok with isBold := true } ∈ tokenizeLine l := by
  refine ⟨by decide, ?_⟩
  intro l pre inner rest hf tok htok
  rw [tokenizeLine_eq l, hf]
  dsimp only
  refine List.mem_append.mpr (Or.inl ?_)
  refine List.mem_append.mpr (Or.inr ?_)
  exact List.mem_map.mpr ⟨tok, htok, rfl⟩

theorem bold_inner_retokenized_forced_bold_witness :
    Token.mk "x".toList true false none ∈ tokenizeLine "**x**".toList :=
  bold_inner_retokenized_forced_bold.2 "**x**".toList [] "x".toList []
    (by decide) (Token.mk "x".toList false false none) (by decide)

/-- C6 counterexample: with bold weight in effect before the call, the
weight after `renderFormattedLine` returns is `normal`, not the caller's
`bold` — the source ends with `doc.setFont(undefined, 'normal')`
unconditionally, so the pre-call weight is not restored. -/
theorem renderFormattedLine_weight_not_restored :
    stBold.style = FontStyle.bold ∧
    (renderFormattedLine wONE "a".toList 0 50 100 stBold).map
        (fun r => r.2.1.style) = some FontStyle.normal ∧
    FontStyle.normal ≠ FontStyle.bold := by
  decide

theorem renderFormattedLine_restores_witness :
    ((55 : ℤ), stTest,
        [Emit.mk "a".toList 0 50 FontStyle.normal none]).2.1.fontSize =
      stTest.fontSize ∧
    ((55 : ℤ), stTest,
        [Emit.mk "a".toList 0 50 FontStyle.normal none]).2.1.style =
      FontStyle.normal :=
  renderFormattedLine_restores wONE "a".toList 0 50 100 stTest
    (55, stTest, [Emit.mk "a".toList 0 50 FontStyle.normal none]) (by decide)

/-- C7: when the PDF generation body throws, the top-level catch logs the
error and surfaces exactly the notice "An error occurred while creating
the PDF file.", and no file save is triggered; a successful body saves the
ticker-named file with no notice. -/
theorem downloadAsPdf_catches_generation_error (ticker err : List Char) :
    downloadAsPdfOutcome ticker (Except.error err) =
      ⟨none, some "An error occurred while creating the PDF file.".toList,
        true⟩ ∧
    (downloadAsPdfOutcome ticker (Except.error err)).savedFile = none ∧
    downloadAsPdfOutcome ticker (Except.ok ()) =
      ⟨some (ticker ++ "_Financial_Analysis.pdf".toList), none, false⟩ :=
  ⟨rfl, rfl, rfl⟩

/-- C8: a line on which the tokenizer regex finds no match (neither a bold
marker pair nor a bare URL) yields exactly one plain span covering the
whole line, and the empty line yields the empty sequence. -/
theorem tokenizeLine_no_match (l : List Char) (h : findFirst l = none) :
    tokenizeLine l = if l = [] then [] else [⟨l, false, false, none⟩] := by
  rw [tokenizeLine_eq l, h]

theorem tokenizeLine_no_match_witness :
    tokenizeLine "plain".toList =
      if "plain".toList = [] then []
      else [⟨"plain".toList, false, false, none⟩] :=
  tokenizeLine_no_match "plain".toList (by decide)

/-- C9: a bullet block whose physical lines each fit the bullet content
width (177 mm) leaves the layout cursor `y` unchanged — each line is drawn
at `y - 5` and the renderer returns `(y - 5) + 5 = y` — so consecutive
fitting bullet lines are drawn at the same vertical position. -/
theorem bulletBlock_keeps_y (w : FontStyle → Char → ℤ)
    (ls : List (List Char)) (y : ℤ) (st : PdfState)
    (hw : ∀ s c, 0 ≤ w s c)
    (hfit : ∀ l ∈ ls, tokensWidth w (tokenizeLine l) ≤ 177) :
    ∃ st2 es, bulletBlock w ls y st = some (y, st2, es) ∧
      ∀ e ∈ es, e.ey = y - 5 := by
  unfold bulletBlock
  exact bulletStep_no_wrap w hw ls y _ hfit

theorem bulletBlock_keeps_y_witness :
    ∃ st2 es, bulletBlock wONE ["x".toList] 40 stTest = some (40, st2, es) ∧
      ∀ e ∈ es, e.ey = 40 - 5 :=
  bulletBlock_keeps_y wONE ["x".toList] 40 stTest
    (fun _ _ => (by decide : (0 : ℤ) ≤ 1))
    (fun l hl => by
      simp only [List.mem_singleton] at hl
      subst hl
      decide)

/-- C10: every document line is trimmed before classification — leading
and trailing whitespace never changes a line's block class, and a
whitespace-only line is classified blank. -/
theorem classifyLine_trims (ws line ws2 : List Char)
    (h1 : ∀ c ∈ ws, jsIsSpace c = true) (h2 : ∀ c ∈ ws2, jsIsSpace c = true) :
    classifyLine (ws ++ line ++ ws2) = classifyLine line ∧
    ((∀ c ∈ line, jsIsSpace c = true) →
      classifyLine line = LineClass.blank) := by
  constructor
  · unfold classifyLine
    rw [trimList_pad ws line ws2 h1 h2]
  · intro hall
    unfold classifyLine
    rw [trimList_of_all_space line hall]
    rfl

theorem classifyLine_trims_witness :
    classifyLine ("  ".toList ++ "## Title".toList ++ " ".toList) =
      classifyLine "## Title".toList ∧
    ((∀ c ∈ "## Title".toList, jsIsSpace c = true) →
      classifyLine "## Title".toList = LineClass.blank) :=
  classifyLine_trims "  ".toList "## Title".toList " ".toList (by decide)
    (by decide)
